import Mathlib

/-!
Verification of the flash-dns core: DNS wire parsing (`ParseQuery`,
`ExtractTTL`, `CreateCacheKey`), synthetic response construction
(`CreateBlockedResponse`, `CreateNullResponse`), and the TTL-aware cache
(`DNSCache`).  Byte strings are modelled as `List Nat`; a fallible
operation returns `Option`/`Except`, with `none` (resp. a dedicated error
value) standing for a runtime index-out-of-range fault.
-/

set_option maxHeartbeats 1000000

namespace FlashDns

/-- Big-endian decoding of two bytes, as `binary.BigEndian.Uint16`. -/
def be16 (hi lo : Nat) : Nat := hi * 256 + lo

/-- Big-endian decoding of four bytes, as `binary.BigEndian.Uint32`. -/
def be32 (b0 b1 b2 b3 : Nat) : Nat := ((b0 * 256 + b1) * 256 + b2) * 256 + b3

/-- A checked slice read: `data[i : i+n]`, `none` when out of range. -/
def sliceAt (l : List Nat) (i n : Nat) : Option (List Nat) :=
  if i + n ≤ l.length then some ((l.drop i).take n) else none

/-- ASCII decimal representation of a natural number, as `fmt.Sprintf` with
the `%d` verb produces. -/
def decRepr (n : Nat) : List Nat := (Nat.repr n).toList.map Char.toNat

/-- Errors returned by `ParseQuery`; `oob` marks a runtime
index-out-of-range fault (proved unreachable below). -/
inductive ParseErr where
  | tooShort
  | badLabel
  | shortQC
  | oob
deriving Repr, DecidableEq

/-- The record returned by `ParseQuery` (struct `QueryInfo` in
`internal/utils/parsing.go`). -/
structure QueryInfo where
  Domain : List Nat
  CacheKey : List Nat
  QType : Nat
  QClass : Nat
deriving Repr, DecidableEq

theorem get?_some_lt {l : List Nat} {i b : Nat} (h : l.get? i = some b) :
    i < l.length := by
  by_contra hlt
  rw [List.get?_eq_none.mpr (by omega)] at h
  exact Option.noConfusion h

/-- The name-walking loop of `ParseQuery` (`internal/utils/parsing.go`,
lines 41-65): at each position read a length byte `L`; `L = 0` ends the
name; `L ≥ 192` skips two bytes and continues the loop; otherwise a dot is
appended when the accumulator is nonempty, the label bounds are checked,
and the `L` label bytes are appended.  The loop also ends when the
position reaches the end of the buffer. -/
def ParseQueryLoop (q : List Nat) (pos : Nat) (acc : List Nat) :
    Except ParseErr (List Nat × Nat) :=
  if h : pos < q.length then
    match q.get? pos with
    | none => .error .oob
    | some length =>
      if length = 0 then .ok (acc, pos + 1)
      else if 192 ≤ length then ParseQueryLoop q (pos + 2) acc
      else
        let acc2 := if 0 < acc.length then acc ++ [46] else acc
        if q.length < pos + 1 + length then .error .badLabel
        else
          match sliceAt q (pos + 1) length with
          | none => .error .oob
          | some lbl => ParseQueryLoop q (pos + 1 + length) (acc2 ++ lbl)
  else .ok (acc, pos)
termination_by q.length - pos
decreasing_by
  · omega
  · omega

/-- `ParseQuery` (`internal/utils/parsing.go`, lines 23-78): reject inputs
shorter than 12 bytes, walk the question name from offset 12, then read
qtype and qclass as big-endian 16-bit fields and build the cache key
`<domain>:<qtype-decimal>`. -/
def ParseQuery (query : List Nat) : Except ParseErr QueryInfo :=
  if query.length < 12 then .error .tooShort
  else
    match ParseQueryLoop query 12 [] with
    | .error e => .error e
    | .ok (domain, pos) =>
      if query.length < pos + 4 then .error .shortQC
      else
        match query.get? pos, query.get? (pos + 1),
              query.get? (pos + 2), query.get? (pos + 3) with
        | some t1, some t2, some c1, some c2 =>
          let qtype := be16 t1 t2
          let qclass := be16 c1 c2
          .ok ⟨domain, domain ++ [58] ++ decRepr qtype, qtype, qclass⟩
        | _, _, _, _ => .error .oob

/-- The name-skipping inner loop of `ExtractTTL`: while in bounds and the
current byte is nonzero, a byte ≥ 192 advances by two and breaks, any
other byte `b` advances by `b + 1`.  Every read here is guarded by the
loop condition, exactly as in the source. -/
def SkipName (r : List Nat) (pos : Nat) : Nat :=
  if h : pos < r.length then
    if r.getD pos 0 = 0 then pos
    else if 192 ≤ r.getD pos 0 then pos + 2
    else SkipName r (pos + r.getD pos 0 + 1)
  else pos
termination_by r.length - pos
decreasing_by
  omega

/-- One iteration of the question-section loop of `ExtractTTL`
(`internal/utils/parsing.go`, lines 90-106): skip the name, then test
`response[position] == 0` — this read is NOT bounds-checked in the source,
so it is a checked read here, `none` standing for the panic — then skip
the terminator if present and four bytes of qtype/qclass. -/
def SkipQuestion (r : List Nat) (pos : Nat) : Option Nat :=
  let p := SkipName r pos
  match r.get? p with
  | none => none
  | some b => some ((if b = 0 then p + 1 else p) + 4)

/-- The question-section loop of `ExtractTTL`, iterated `qdcount` times. -/
def SkipQuestions (r : List Nat) : Nat → Nat → Option Nat
  | pos, 0 => some pos
  | pos, n + 1 =>
    match SkipQuestion r pos with
    | none => none
    | some p => SkipQuestions r p n

/-- The answer-section loop of `ExtractTTL` (`internal/utils/parsing.go`,
lines 112-139): while answers remain and `position + 10 < len`, skip the
name (the mid-loop zero test is bounds-guarded in the source here), break
if fewer than 10 bytes remain, read the TTL at offset +4, keep the
minimum, and advance past the record using rdlength. -/
def AnswerLoop (r : List Nat) : Nat → Nat → Nat → Nat
  | _, minTTL, 0 => minTTL
  | pos, minTTL, i + 1 =>
    if pos + 10 < r.length then
      let p := SkipName r pos
      let p2 := if p < r.length then (if r.getD p 0 = 0 then p + 1 else p) else p
      if r.length < p2 + 10 then minTTL
      else
        let ttl := be32 (r.getD (p2 + 4) 0) (r.getD (p2 + 5) 0)
                        (r.getD (p2 + 6) 0) (r.getD (p2 + 7) 0)
        let m2 := if ttl < minTTL then ttl else minTTL
        let rdlength := be16 (r.getD (p2 + 8) 0) (r.getD (p2 + 9) 0)
        AnswerLoop r (p2 + 10 + rdlength) m2 i
    else minTTL

/-- `ExtractTTL` (`internal/utils/parsing.go`, lines 80-142): 300 for
inputs shorter than 12 bytes; otherwise walk `qdcount` questions, then
fold the answer TTLs into a minimum initialised to 3600.  `none` stands
for the runtime panic of the unguarded read in the question walk. -/
def ExtractTTL (response : List Nat) : Option Nat :=
  if response.length < 12 then some 300
  else
    match SkipQuestions response 12 (be16 (response.getD 4 0) (response.getD 5 0)) with
    | none => none
    | some pos =>
      some (AnswerLoop response pos 3600 (be16 (response.getD 6 0) (response.getD 7 0)))

/-- The `parseDomainName` helper of the second `utils` variant
(`src/unnamed/part_000`, lines 16-42): an unbounded loop with NO bounds
checks — both the length-byte read and the label slice are checked reads
here, `none` standing for the panic.  No special case for bytes ≥ 192. -/
def parseDomainName (data : List Nat) (pos : Nat) (acc : List Nat) :
    Option (List Nat × Nat) :=
  match hb : data.get? pos with
  | none => none
  | some length =>
    if length = 0 then some (acc, pos + 1)
    else
      let acc2 := if 0 < acc.length then acc ++ [46] else acc
      match sliceAt data (pos + 1) length with
      | none => none
      | some lbl => parseDomainName data (pos + 1 + length) (acc2 ++ lbl)
termination_by data.length - pos
decreasing_by
  have := get?_some_lt hb
  omega

/-- `CreateCacheKey` (`src/unnamed/part_000`, lines 110-128): empty key
for inputs shorter than 12 bytes; otherwise parse the name from offset
12, return the bare domain when the position passed the end, else read
qtype (a two-byte read only guarded by `position > len(query)`, hence
checked) and produce `<domain>:<qtype-decimal>`. -/
def CreateCacheKey (query : List Nat) : Option (List Nat) :=
  if query.length < 12 then some []
  else
    match parseDomainName query 12 [] with
    | none => none
    | some (domain, pos) =>
      if query.length < pos then some domain
      else
        match query.get? pos, query.get? (pos + 1) with
        | some hi, some lo => some (domain ++ [58] ++ decRepr (be16 hi lo))
        | _, _ => none

/-- Modelled from the spec: the function `CreateBlockedResponse` is not in
the sources (only its tests in `src/unnamed/part_001`); per spec §4.1 it
returns the query with the flags word (bytes 2-3) set to `0x8183`, and
returns inputs shorter than 12 bytes unchanged. -/
def CreateBlockedResponse (query : List Nat) : List Nat :=
  if query.length < 12 then query
  else (query.set 2 0x81).set 3 0x83

/-- Modelled from the spec: the function `CreateNullResponse` is not in
the sources (only its tests in `src/unnamed/part_001`); per spec §4.1 it
sets the flags word to `0x8180`, the answer count to 1, and appends an
A-record answer with a name pointer to offset 12, class IN, TTL 600
(`0x00000258`), rdlength 4 and rdata `0.0.0.0`; inputs shorter than 12
bytes are returned unchanged. -/
def CreateNullResponse (query : List Nat) : List Nat :=
  if query.length < 12 then query
  else
    ((((query.set 2 0x81).set 3 0x80).set 6 0).set 7 1) ++
      [0xC0, 0x0C, 0, 1, 0, 1, 0, 0, 0x02, 0x58, 0, 4, 0, 0, 0, 0]

/-! ## The cache model

The `DNSCache` implementation (`internal/cache/cache.go`) is not in the
sources — only its tests — so the cache is modelled from the spec (§3,
§4.2, §4.3).  Time is in whole seconds; the map is an association list
keyed by strings. -/

/-- Spec §3 tunable: stale-while-revalidate window, 5 minutes. -/
def GRACE_PERIOD : Nat := 300

/-- Spec §3 tunable: hit count at which an entry counts as popular. -/
def POPULARITY_THRESHOLD : Nat := 5

/-- Spec §3 tunable: hard bound on the entry count. -/
def CACHE_MAX_SIZE : Nat := 10000

/-- Modelled from the spec: the `CacheEntry` struct (spec §3) — the
cache implementation is absent from the sources. -/
structure CacheEntry where
  Response : List Nat
  CreatedAt : Nat
  ExpiresAt : Nat
  originalTTL : Nat
  popularity : Nat
deriving Repr, DecidableEq

/-- Modelled from the spec: `is_stale(now)` (spec §3). -/
def CacheEntry.IsStale (e : CacheEntry) (now : Nat) : Bool :=
  decide (e.ExpiresAt ≤ now) && decide (now < e.ExpiresAt + GRACE_PERIOD)

/-- Modelled from the spec: `is_completely_expired(now)` (spec §3). -/
def CacheEntry.IsCompletelyExpired (e : CacheEntry) (now : Nat) : Bool :=
  decide (e.ExpiresAt + GRACE_PERIOD ≤ now)

/-- Modelled from the spec: `is_popular()` (spec §3). -/
def CacheEntry.IsPopular (e : CacheEntry) : Bool :=
  decide (POPULARITY_THRESHOLD ≤ e.popularity)

/-- Modelled from the spec: `should_prefetch(now)` (spec §3), with the
`PREFETCH_THRESHOLD = 0.8` reference value expressed over integers as
`5 * now ≥ 5 * created_at + 4 * original_ttl`. -/
def CacheEntry.ShouldPrefetch (e : CacheEntry) (now : Nat) : Bool :=
  e.IsPopular && decide (5 * e.CreatedAt + 4 * e.originalTTL ≤ 5 * now)
    && !(e.IsStale now)

/-- Modelled from the spec: the eviction score (spec §4.3), doubled to
stay in the integers: `2 * (pop*10 + remaining*1 - age*0.5)`. -/
def evictionScore (e : CacheEntry) (now : Nat) : Int :=
  20 * (e.popularity : Int) + 2 * ((e.ExpiresAt : Int) - (now : Int)) -
    ((now : Int) - (e.CreatedAt : Int))

/-- Modelled from the spec: the cache store (spec §4.3), an association
list standing for the Go map; operations below keep its keys unique. -/
structure DNSCache where
  entries : List (String × CacheEntry)
deriving Repr, DecidableEq

/-- Modelled from the spec: a new, empty cache. -/
def NewDNSCache : DNSCache := ⟨[]⟩

/-- First-match lookup in the association list. -/
def lookupEntry : List (String × CacheEntry) → String → Option CacheEntry
  | [], _ => none
  | p :: rest, k => if p.1 = k then some p.2 else lookupEntry rest k

/-- Insert-or-overwrite: replaces the first binding of the key, or
appends a new binding. -/
def setEntryList : List (String × CacheEntry) → String → CacheEntry →
    List (String × CacheEntry)
  | [], k, e => [(k, e)]
  | p :: rest, k, e => if p.1 = k then (k, e) :: rest else p :: setEntryList rest k e

/-- Remove the first binding of the key. -/
def eraseEntry : List (String × CacheEntry) → String → List (String × CacheEntry)
  | [], _ => []
  | p :: rest, k => if p.1 = k then rest else p :: eraseEntry rest k

/-- Key membership. -/
def containsKey (l : List (String × CacheEntry)) (k : String) : Bool :=
  (lookupEntry l k).isSome

/-- Modelled from the spec: pick the better eviction victim of two
candidates — lower score wins, ties break toward the older entry
(spec §4.3). -/
def betterVictim (now : Nat) (a b : String × CacheEntry) : Bool :=
  evictionScore b.2 now < evictionScore a.2 now ||
    (decide (evictionScore b.2 now = evictionScore a.2 now) &&
      decide (b.2.CreatedAt < a.2.CreatedAt))

/-- Fold selecting the best victim from a nonempty candidate list. -/
def pickVictim (now : Nat) (x : String × CacheEntry) :
    List (String × CacheEntry) → String × CacheEntry
  | [] => x
  | y :: ys => pickVictim now (if betterVictim now x y then y else x) ys

/-- Lower remaining TTL wins (used when every entry is popular). -/
def lowerRemaining (now : Nat) (a b : String × CacheEntry) : Bool :=
  (b.2.ExpiresAt : Int) - (now : Int) < (a.2.ExpiresAt : Int) - (now : Int)

/-- Fold selecting the entry with the lowest remaining TTL. -/
def pickLowestTTL (now : Nat) (x : String × CacheEntry) :
    List (String × CacheEntry) → String × CacheEntry
  | [] => x
  | y :: ys => pickLowestTTL now (if lowerRemaining now x y then y else x) ys

/-- Modelled from the spec: the eviction victim (spec §4.3) — among
non-popular entries the lowest eviction score (ties toward the older
entry); when every entry is popular, the lowest remaining TTL. -/
def selectVictim (l : List (String × CacheEntry)) (now : Nat) : Option String :=
  match l.filter (fun p => !p.2.IsPopular) with
  | [] =>
    match l with
    | [] => none
    | x :: xs => some (pickLowestTTL now x xs).1
  | x :: xs => some (pickVictim now x xs).1

/-- Modelled from the spec: `set(key, response, ttl)` (spec §4.3) — if
inserting would push the size beyond `CACHE_MAX_SIZE` and the key is not
already present, evict one entry first; then insert or overwrite a fresh
entry with popularity 0. -/
def DNSCache.Set (c : DNSCache) (key : String) (response : List Nat)
    (ttl : Nat) (now : Nat) : DNSCache :=
  if containsKey c.entries key then
    ⟨setEntryList c.entries key ⟨response, now, now + ttl, ttl, 0⟩⟩
  else if CACHE_MAX_SIZE < c.entries.length + 1 then
    match selectVictim c.entries now with
    | none => ⟨setEntryList c.entries key ⟨response, now, now + ttl, ttl, 0⟩⟩
    | some victim =>
      ⟨setEntryList (eraseEntry c.entries victim) key ⟨response, now, now + ttl, ttl, 0⟩⟩
  else ⟨setEntryList c.entries key ⟨response, now, now + ttl, ttl, 0⟩⟩

/-- Modelled from the spec: `get(key)` (spec §4.3) — miss; completely
expired (lazy delete); stale within the grace period (serve with
`needs_refresh`); fresh (serve, bump popularity, prefetch signal for
popular entries past 80% of TTL). -/
def DNSCache.Get (c : DNSCache) (key : String) (now : Nat) :
    (Option (List Nat) × Bool × Bool) × DNSCache :=
  match lookupEntry c.entries key with
  | none => ((none, false, false), c)
  | some e =>
    if e.IsCompletelyExpired now then
      ((none, false, false), ⟨eraseEntry c.entries key⟩)
    else
      let e2 : CacheEntry := { e with popularity := e.popularity + 1 }
      let c2 : DNSCache := ⟨setEntryList c.entries key e2⟩
      if e.IsStale now then ((some e.Response, true, true), c2)
      else ((some e.Response, true, e2.ShouldPrefetch now), c2)

/-! ## Builders for well-formed wire messages

These generate the families of well-formed queries and responses the
universal theorems quantify over. -/

/-- Big-endian encoding of a 16-bit value. -/
def be16Bytes (n : Nat) : List Nat := [n / 256 % 256, n % 256]

/-- Wire encoding of a label sequence: each label is its length byte
followed by its bytes. -/
def encodeLabels (ls : List (List Nat)) : List Nat :=
  (ls.map (fun l => l.length :: l)).flatten

/-- The domain string a label sequence denotes, extending an accumulator
the way the parsing loops do: a dot separates a label from a nonempty
prefix. -/
def joinLabels (acc : List Nat) (ls : List (List Nat)) : List Nat :=
  ls.foldl (fun a l => (if 0 < a.length then a ++ [46] else a) ++ l) acc

/-- A well-formed query: 12-byte header, the encoded name with its zero
terminator, then qtype and qclass big-endian. -/
def mkQuery (ls : List (List Nat)) (qtype qclass : Nat) : List Nat :=
  List.replicate 12 0 ++ encodeLabels ls ++ [0] ++ be16Bytes qtype ++ be16Bytes qclass

/-- A label sequence is well formed when every label is nonempty and
shorter than 192 bytes (so its length byte is neither a terminator nor a
compression pointer). -/
def GoodLabels (ls : List (List Nat)) : Prop :=
  ∀ l ∈ ls, 0 < l.length ∧ l.length < 192

instance : DecidablePred GoodLabels := fun ls =>
  inferInstanceAs (Decidable (∀ l ∈ ls, 0 < l.length ∧ l.length < 192))

/-- Wire encoding of one answer record with the root name: name `0x00`,
type A, class IN, the TTL big-endian, rdlength, rdata. -/
def encodeAnswer (ttl : Nat) (rdata : List Nat) : List Nat :=
  0 :: 0 :: 1 :: 0 :: 1 ::
    (ttl / 16777216 % 256) :: (ttl / 65536 % 256) :: (ttl / 256 % 256) :: (ttl % 256) ::
    (rdata.length / 256 % 256) :: (rdata.length % 256) :: rdata

/-- A well-formed response with no question and the given answer records:
a 12-byte header carrying `ancount = answers.length`, then the encoded
answers. -/
def mkResponse (answers : List (Nat × List Nat)) : List Nat :=
  [0, 0, 0, 0, 0, 0, answers.length / 256 % 256, answers.length % 256, 0, 0, 0, 0] ++
    (answers.map (fun a => encodeAnswer a.1 a.2)).flatten

/-- Answer records are well formed when each TTL fits in 32 bits and each
rdata length in 16 bits. -/
def GoodAnswers (answers : List (Nat × List Nat)) : Prop :=
  ∀ a ∈ answers, a.1 < 4294967296 ∧ a.2.length < 65536

instance : DecidablePred GoodAnswers := fun answers =>
  inferInstanceAs (Decidable (∀ a ∈ answers, a.1 < 4294967296 ∧ a.2.length < 65536))

/-! ## Association-list lemmas for the cache -/

theorem lookup_setEntryList_self (l : List (String × CacheEntry)) (k : String)
    (e : CacheEntry) : lookupEntry (setEntryList l k e) k = some e := by
  induction l with
  | nil => simp [setEntryList, lookupEntry]
  | cons p rest ih =>
    by_cases hp : p.1 = k
    · simp [setEntryList, hp, lookupEntry]
    · simp [setEntryList, hp, lookupEntry, ih]

theorem lookup_setEntryList_ne (l : List (String × CacheEntry)) (k k2 : String)
    (e : CacheEntry) (h : k2 ≠ k) :
    lookupEntry (setEntryList l k e) k2 = lookupEntry l k2 := by
  induction l with
  | nil => simp [setEntryList, lookupEntry, Ne.symm h]
  | cons p rest ih =>
    by_cases hp : p.1 = k
    · simp [setEntryList, hp, lookupEntry, Ne.symm h]
    · simp [setEntryList, hp, lookupEntry, ih]

theorem lookup_eq_none_iff (l : List (String × CacheEntry)) (k : String) :
    lookupEntry l k = none ↔ k ∉ l.map Prod.fst := by
  induction l with
  | nil => simp [lookupEntry]
  | cons p rest ih =>
    by_cases hp : p.1 = k
    · simp [lookupEntry, hp]
    · simp [lookupEntry, hp, ih, Ne.symm hp]

theorem containsKey_iff_mem (l : List (String × CacheEntry)) (k : String) :
    containsKey l k = true ↔ k ∈ l.map Prod.fst := by
  rw [containsKey, Option.isSome_iff_ne_none]
  constructor
  · intro h
    by_contra hm
    exact h ((lookup_eq_none_iff l k).mpr hm)
  · intro h hn
    exact ((lookup_eq_none_iff l k).mp hn) h

theorem length_setEntryList (l : List (String × CacheEntry)) (k : String)
    (e : CacheEntry) :
    (setEntryList l k e).length =
      if containsKey l k then l.length else l.length + 1 := by
  induction l with
  | nil => simp [setEntryList, containsKey, lookupEntry]
  | cons p rest ih =>
    by_cases hp : p.1 = k
    · simp [setEntryList, hp, containsKey, lookupEntry]
    · simp only [setEntryList, if_neg hp, List.length_cons, ih, containsKey,
        lookupEntry, if_neg hp]
      split <;> omega

theorem mem_keys_setEntryList (l : List (String × CacheEntry)) (k : String)
    (e : CacheEntry) (x : String) (h : x ∈ (setEntryList l k e).map Prod.fst) :
    x = k ∨ x ∈ l.map Prod.fst := by
  induction l with
  | nil => simpa [setEntryList] using h
  | cons p rest ih =>
    by_cases hp : p.1 = k
    · simp only [setEntryList, if_pos hp, List.map_cons, List.mem_cons] at h
      rcases h with h | h
      · exact Or.inl h
      · exact Or.inr (by simp [h])
    · simp only [setEntryList, if_neg hp, List.map_cons, List.mem_cons] at h
      rcases h with h | h
      · exact Or.inr (by simp [h])
      · rcases ih h with h2 | h2
        · exact Or.inl h2
        · exact Or.inr (by simp [h2])

theorem nodupkeys_setEntryList (l : List (String × CacheEntry)) (k : String)
    (e : CacheEntry) (h : (l.map Prod.fst).Nodup) :
    ((setEntryList l k e).map Prod.fst).Nodup := by
  induction l with
  | nil => simp [setEntryList]
  | cons p rest ih =>
    simp only [List.map_cons, List.nodup_cons] at h
    by_cases hp : p.1 = k
    · simp only [setEntryList, if_pos hp, List.map_cons, List.nodup_cons]
      exact ⟨hp ▸ h.1, h.2⟩
    · simp only [setEntryList, if_neg hp, List.map_cons, List.nodup_cons]
      refine ⟨fun hm => ?_, ih h.2⟩
      rcases mem_keys_setEntryList rest k e p.1 hm with h2 | h2
      · exact hp h2
      · exact h.1 h2

theorem keys_eraseEntry_sublist (l : List (String × CacheEntry)) (k : String) :
    ((eraseEntry l k).map Prod.fst).Sublist (l.map Prod.fst) := by
  induction l with
  | nil => simp [eraseEntry]
  | cons p rest ih =>
    by_cases hp : p.1 = k
    · simp only [eraseEntry, if_pos hp, List.map_cons]
      exact List.sublist_cons_self p.1 (rest.map Prod.fst)
    · simp only [eraseEntry, if_neg hp, List.map_cons]
      exact ih.cons₂ p.1

theorem length_eraseEntry_of_mem (l : List (String × CacheEntry)) (k : String)
    (h : k ∈ l.map Prod.fst) : (eraseEntry l k).length + 1 = l.length := by
  induction l with
  | nil => simp at h
  | cons p rest ih =>
    by_cases hp : p.1 = k
    · simp [eraseEntry, hp]
    · simp only [List.map_cons, List.mem_cons] at h
      rcases h with h | h
      · exact absurd h.symm hp
      · simp [eraseEntry, hp, ih h]

theorem lookup_eraseEntry_self (l : List (String × CacheEntry)) (k : String)
    (h : (l.map Prod.fst).Nodup) : lookupEntry (eraseEntry l k) k = none := by
  induction l with
  | nil => simp [eraseEntry, lookupEntry]
  | cons p rest ih =>
    simp only [List.map_cons, List.nodup_cons] at h
    by_cases hp : p.1 = k
    · simp only [eraseEntry, if_pos hp]
      exact (lookup_eq_none_iff rest k).mpr (hp ▸ h.1)
    · simp [eraseEntry, lookupEntry, hp, ih h.2]

theorem pickVictim_mem (now : Nat) (x : String × CacheEntry)
    (ys : List (String × CacheEntry)) : pickVictim now x ys ∈ x :: ys := by
  induction ys generalizing x with
  | nil => simp [pickVictim]
  | cons y ys ih =>
    simp only [pickVictim]
    by_cases hb : betterVictim now x y
    · rw [if_pos hb]
      rcases List.mem_cons.mp (ih y) with h2 | h2
      · exact List.mem_cons.mpr (Or.inr (List.mem_cons.mpr (Or.inl h2)))
      · exact List.mem_cons.mpr (Or.inr (List.mem_cons.mpr (Or.inr h2)))
    · rw [if_neg hb]
      rcases List.mem_cons.mp (ih x) with h2 | h2
      · exact List.mem_cons.mpr (Or.inl h2)
      · exact List.mem_cons.mpr (Or.inr (List.mem_cons.mpr (Or.inr h2)))

theorem pickLowestTTL_mem (now : Nat) (x : String × CacheEntry)
    (ys : List (String × CacheEntry)) : pickLowestTTL now x ys ∈ x :: ys := by
  induction ys generalizing x with
  | nil => simp [pickLowestTTL]
  | cons y ys ih =>
    simp only [pickLowestTTL]
    by_cases hb : lowerRemaining now x y
    · rw [if_pos hb]
      rcases List.mem_cons.mp (ih y) with h2 | h2
      · exact List.mem_cons.mpr (Or.inr (List.mem_cons.mpr (Or.inl h2)))
      · exact List.mem_cons.mpr (Or.inr (List.mem_cons.mpr (Or.inr h2)))
    · rw [if_neg hb]
      rcases List.mem_cons.mp (ih x) with h2 | h2
      · exact List.mem_cons.mpr (Or.inl h2)
      · exact List.mem_cons.mpr (Or.inr (List.mem_cons.mpr (Or.inr h2)))

theorem selectVictim_mem (l : List (String × CacheEntry)) (now : Nat)
    (hne : l ≠ []) : ∃ k, selectVictim l now = some k ∧ k ∈ l.map Prod.fst := by
  unfold selectVictim
  cases hf : l.filter (fun p => !p.2.IsPopular) with
  | nil =>
    cases l with
    | nil => exact absurd rfl hne
    | cons x xs =>
      exact ⟨_, rfl, List.mem_map_of_mem _ (pickLowestTTL_mem now x xs)⟩
  | cons x xs =>
    refine ⟨_, rfl, List.mem_map_of_mem _ ?_⟩
    have hm : pickVictim now x xs ∈ x :: xs := pickVictim_mem now x xs
    exact List.mem_of_mem_filter (hf ▸ hm)

/-- After any `Set`, looking the key up finds the fresh entry, and key
uniqueness is preserved. -/
theorem Set_lookup_self_and_nodup (c : DNSCache) (k : String) (v : List Nat)
    (ttl now : Nat) :
    lookupEntry (c.Set k v ttl now).entries k = some ⟨v, now, now + ttl, ttl, 0⟩ ∧
    ((c.entries.map Prod.fst).Nodup →
      ((c.Set k v ttl now).entries.map Prod.fst).Nodup) := by
  unfold DNSCache.Set
  by_cases hc : containsKey c.entries k
  · simp only [hc, if_true]
    exact ⟨lookup_setEntryList_self _ _ _, fun h => nodupkeys_setEntryList _ _ _ h⟩
  · simp only [hc, Bool.false_eq_true, if_false]
    by_cases hsz : CACHE_MAX_SIZE < c.entries.length + 1
    · simp only [if_pos hsz]
      cases hv : selectVictim c.entries now with
      | none =>
        exact ⟨lookup_setEntryList_self _ _ _,
          fun h => nodupkeys_setEntryList _ _ _ h⟩
      | some victim =>
        refine ⟨lookup_setEntryList_self _ _ _, fun h =>
          nodupkeys_setEntryList _ _ _ ?_⟩
        exact (keys_eraseEntry_sublist c.entries victim).nodup h
    · simp only [if_neg hsz]
      exact ⟨lookup_setEntryList_self _ _ _, fun h => nodupkeys_setEntryList _ _ _ h⟩

/-! ## Claim C1: entry lifecycle after a Set -/

/-- C1: after `set(k, v, t)` at time `t0`, a `get(k)` at `t0 + e` with no
intervening operation on `k` is determined by the elapsed time `e`:
fresh (`e < t`) serves `(v, true, false)`; stale
(`t ≤ e < t + GRACE_PERIOD`) serves `(v, true, true)`; completely expired
(`e ≥ t + GRACE_PERIOD`) yields `(none, false, false)` and the entry is
gone from the map afterwards. -/
theorem claim_C1_entry_lifecycle (c : DNSCache) (k : String) (v : List Nat)
    (t t0 e : Nat) (hnd : (c.entries.map Prod.fst).Nodup) (he : 0 < e) :
    (((c.Set k v t t0).Get k (t0 + e)).1 =
      if e < t then (some v, true, false)
      else if e < t + GRACE_PERIOD then (some v, true, true)
      else (none, false, false)) ∧
    (t + GRACE_PERIOD ≤ e →
      lookupEntry (((c.Set k v t t0).Get k (t0 + e)).2).entries k = none) := by
  obtain ⟨hset, hnd2⟩ := Set_lookup_self_and_nodup c k v t t0
  have hnd3 := hnd2 hnd
  by_cases h1 : e < t
  · have hce : CacheEntry.IsCompletelyExpired ⟨v, t0, t0 + t, t, 0⟩ (t0 + e) = false := by
      simp [CacheEntry.IsCompletelyExpired, GRACE_PERIOD]; omega
    have hst : CacheEntry.IsStale ⟨v, t0, t0 + t, t, 0⟩ (t0 + e) = false := by
      simp [CacheEntry.IsStale, GRACE_PERIOD]; omega
    refine ⟨?_, fun hexp => by omega⟩
    simp [DNSCache.Get, hset, hce, hst, CacheEntry.ShouldPrefetch,
      CacheEntry.IsPopular, POPULARITY_THRESHOLD, h1]
  · by_cases h2 : e < t + GRACE_PERIOD
    · have hce : CacheEntry.IsCompletelyExpired ⟨v, t0, t0 + t, t, 0⟩ (t0 + e) = false := by
        simp [CacheEntry.IsCompletelyExpired, GRACE_PERIOD] at h2 ⊢
        omega
      have hst : CacheEntry.IsStale ⟨v, t0, t0 + t, t, 0⟩ (t0 + e) = true := by
        simp [CacheEntry.IsStale, GRACE_PERIOD] at h2 ⊢
        omega
      refine ⟨?_, fun hexp => by simp [GRACE_PERIOD] at h2 hexp; omega⟩
      simp [DNSCache.Get, hset, hce, hst, h1, h2]
    · have hce : CacheEntry.IsCompletelyExpired ⟨v, t0, t0 + t, t, 0⟩ (t0 + e) = true := by
        simp [CacheEntry.IsCompletelyExpired, GRACE_PERIOD] at h2 ⊢
        omega
      refine ⟨by simp [DNSCache.Get, hset, hce, h1, h2], fun _ => ?_⟩
      simp only [DNSCache.Get, hset, hce, if_true]
      exact lookup_eraseEntry_self _ _ hnd3

/-- Witness for C1 on the empty cache with `t = 5` and `GRACE_PERIOD =
300`, sampled in all three phases: `e = 3` (fresh), `e = 100` (stale),
`e = 400` (completely expired, entry deleted). -/
theorem claim_C1_entry_lifecycle_witness :
    ((NewDNSCache.entries.map Prod.fst).Nodup ∧ (0 : Nat) < 3 ∧ (0 : Nat) < 100 ∧
      (0 : Nat) < 400) ∧
    ((NewDNSCache.Set "example.com:1" [7] 5 0).Get "example.com:1" 3).1 =
      (some [7], true, false) ∧
    ((NewDNSCache.Set "example.com:1" [7] 5 0).Get "example.com:1" 100).1 =
      (some [7], true, true) ∧
    ((NewDNSCache.Set "example.com:1" [7] 5 0).Get "example.com:1" 400).1 =
      (none, false, false) ∧
    lookupEntry (((NewDNSCache.Set "example.com:1" [7] 5 0).Get
      "example.com:1" 400).2).entries "example.com:1" = none := by
  have ha := claim_C1_entry_lifecycle NewDNSCache "example.com:1" [7] 5 0 3
    (by decide) (by decide)
  have hb := claim_C1_entry_lifecycle NewDNSCache "example.com:1" [7] 5 0 100
    (by decide) (by decide)
  have hc := claim_C1_entry_lifecycle NewDNSCache "example.com:1" [7] 5 0 400
    (by decide) (by decide)
  refine ⟨⟨by decide, by decide, by decide, by decide⟩, ?_, ?_, ?_, ?_⟩
  · simpa [GRACE_PERIOD] using ha.1
  · simpa [GRACE_PERIOD] using hb.1
  · simpa [GRACE_PERIOD] using hc.1
  · exact hc.2 (by simp [GRACE_PERIOD])

/-! ## Claim C2: bounded size, and updates do not evict -/

/-- C2: if the entry count is within `CACHE_MAX_SIZE` before a `Set`, it
still is after the `Set` returns; and a `Set` whose key is already
present leaves the entry count unchanged and evicts nothing (every other
key still maps to exactly what it mapped to before). -/
theorem claim_C2_size_bound (c : DNSCache) (k : String) (v : List Nat)
    (ttl now : Nat) (h : c.entries.length ≤ CACHE_MAX_SIZE) :
    (c.Set k v ttl now).entries.length ≤ CACHE_MAX_SIZE ∧
    (containsKey c.entries k = true →
      (c.Set k v ttl now).entries.length = c.entries.length ∧
      ∀ k2, k2 ≠ k →
        lookupEntry (c.Set k v ttl now).entries k2 = lookupEntry c.entries k2) := by
  unfold DNSCache.Set
  by_cases hc : containsKey c.entries k
  · simp only [hc, if_true]
    have hlen : (setEntryList c.entries k
        ⟨v, now, now + ttl, ttl, 0⟩).length = c.entries.length := by
      rw [length_setEntryList, if_pos hc]
    exact ⟨by rw [hlen]; exact h, fun _ =>
      ⟨hlen, fun k2 h2 => lookup_setEntryList_ne _ _ _ _ h2⟩⟩
  · simp only [hc, Bool.false_eq_true, if_false]
    have hnc : ¬ k ∈ c.entries.map Prod.fst := fun hm =>
      hc ((containsKey_iff_mem _ _).mpr hm)
    by_cases hsz : CACHE_MAX_SIZE < c.entries.length + 1
    · simp only [if_pos hsz]
      have hfull : c.entries.length = CACHE_MAX_SIZE := by omega
      have hne : c.entries ≠ [] := by
        intro h0
        rw [h0] at hfull
        simp [CACHE_MAX_SIZE] at hfull
      obtain ⟨victim, hv, hvm⟩ := selectVictim_mem c.entries now hne
      rw [hv]
      refine ⟨?_, fun hk => absurd hk (by simp [hc])⟩
      have hel : (eraseEntry c.entries victim).length + 1 = c.entries.length :=
        length_eraseEntry_of_mem _ _ hvm
      have hkp : ¬ containsKey (eraseEntry c.entries victim) k = true := by
        intro hk
        exact hnc ((keys_eraseEntry_sublist c.entries victim).mem
          ((containsKey_iff_mem _ _).mp hk))
      rw [length_setEntryList, if_neg hkp]
      omega
    · simp only [if_neg hsz]
      refine ⟨?_, fun hk => absurd hk (by simp [hc])⟩
      rw [length_setEntryList]
      split <;> omega

/-- Witness for C2: a one-entry cache updated at its own key keeps its
size, stays within the bound, and other keys are untouched. -/
theorem claim_C2_size_bound_witness :
    ((⟨[("a:1", ⟨[9], 0, 300, 300, 0⟩)]⟩ : DNSCache).entries.length ≤ CACHE_MAX_SIZE) ∧
    ((DNSCache.Set ⟨[("a:1", ⟨[9], 0, 300, 300, 0⟩)]⟩ "a:1" [1] 5 0).entries.length ≤
      CACHE_MAX_SIZE ∧
    (containsKey (⟨[("a:1", ⟨[9], 0, 300, 300, 0⟩)]⟩ : DNSCache).entries "a:1" = true →
      (DNSCache.Set ⟨[("a:1", ⟨[9], 0, 300, 300, 0⟩)]⟩ "a:1" [1] 5 0).entries.length =
        (⟨[("a:1", ⟨[9], 0, 300, 300, 0⟩)]⟩ : DNSCache).entries.length ∧
      ∀ k2, k2 ≠ "a:1" →
        lookupEntry (DNSCache.Set ⟨[("a:1", ⟨[9], 0, 300, 300, 0⟩)]⟩ "a:1" [1] 5 0).entries k2 =
          lookupEntry (⟨[("a:1", ⟨[9], 0, 300, 300, 0⟩)]⟩ : DNSCache).entries k2)) :=
  ⟨by decide, claim_C2_size_bound ⟨[("a:1", ⟨[9], 0, 300, 300, 0⟩)]⟩ "a:1" [1] 5 0
    (by decide)⟩

/-! ## Positional reading lemmas -/

theorem get?_append_add (pre suf : List Nat) (i : Nat) :
    (pre ++ suf).get? (pre.length + i) = suf.get? i := by
  rw [List.get?_append_right (Nat.le_add_right _ _)]
  congr 1
  omega

theorem get?_append_len (pre : List Nat) (x : Nat) (suf : List Nat) :
    (pre ++ x :: suf).get? pre.length = some x := by
  have h := get?_append_add pre (x :: suf) 0
  simpa using h

theorem getD_append_add (pre suf : List Nat) (i : Nat) :
    (pre ++ suf).getD (pre.length + i) 0 = suf.getD i 0 := by
  show ((pre ++ suf).get? (pre.length + i)).getD 0 = (suf.get? i).getD 0
  rw [get?_append_add]

theorem getD_append_len (pre : List Nat) (x : Nat) (suf : List Nat) :
    (pre ++ x :: suf).getD pre.length 0 = x := by
  show ((pre ++ x :: suf).get? pre.length).getD 0 = x
  rw [get?_append_len]
  rfl

theorem sliceAt_append (pre lbl suf : List Nat) :
    sliceAt (pre ++ lbl ++ suf) pre.length lbl.length = some lbl := by
  unfold sliceAt
  rw [if_pos (by simp)]
  congr 1
  rw [List.append_assoc, List.drop_left, List.take_left]

/-! ## The label walk of ParseQuery over encoded names -/

/-- Walking `ParseQueryLoop` from the start of an encoded label sequence
consumes exactly the labels and the zero terminator, accumulating the
dot-joined domain. -/
theorem ParseQueryLoop_encode (ls : List (List Nat)) (pre acc rest : List Nat)
    (hls : GoodLabels ls) :
    ParseQueryLoop (pre ++ encodeLabels ls ++ [0] ++ rest) pre.length acc =
      .ok (joinLabels acc ls, pre.length + (encodeLabels ls).length + 1) := by
  induction ls generalizing pre acc with
  | nil =>
    have hshape : pre ++ encodeLabels [] ++ [0] ++ rest = pre ++ 0 :: rest := by
      simp [encodeLabels]
    have hget : (pre ++ 0 :: rest).get? pre.length = some 0 := get?_append_len pre 0 rest
    rw [hshape, ParseQueryLoop,
      dif_pos (show pre.length < (pre ++ 0 :: rest).length by
        simp only [List.length_append, List.length_cons]
        omega)]
    simp only [hget]
    simp [joinLabels, encodeLabels]
  | cons l ls ih =>
    have hl := hls l (List.mem_cons_self l ls)
    have hls2 : GoodLabels ls := fun x hx => hls x (List.mem_cons_of_mem l hx)
    have hshape : pre ++ encodeLabels (l :: ls) ++ [0] ++ rest =
        pre ++ l.length :: (l ++ (encodeLabels ls ++ [0] ++ rest)) := by
      simp [encodeLabels]
    have hget : (pre ++ l.length :: (l ++ (encodeLabels ls ++ [0] ++ rest))).get?
        pre.length = some l.length := get?_append_len _ _ _
    rw [hshape, ParseQueryLoop,
      dif_pos (show pre.length <
          (pre ++ l.length :: (l ++ (encodeLabels ls ++ [0] ++ rest))).length by
        simp only [List.length_append, List.length_cons]
        omega)]
    simp only [hget]
    rw [if_neg (by omega), if_neg (by omega),
      if_neg (by simp only [List.length_append, List.length_cons]; omega)]
    have hslice : sliceAt (pre ++ l.length :: (l ++ (encodeLabels ls ++ [0] ++ rest)))
        (pre.length + 1) l.length = some l := by
      have h2 : pre ++ l.length :: (l ++ (encodeLabels ls ++ [0] ++ rest)) =
          (pre ++ [l.length]) ++ l ++ (encodeLabels ls ++ [0] ++ rest) := by
        simp
      have h3 : pre.length + 1 = (pre ++ [l.length]).length := by simp
      rw [h2, h3]
      exact sliceAt_append _ _ _
    simp only [hslice]
    have h4 : pre ++ l.length :: (l ++ (encodeLabels ls ++ [0] ++ rest)) =
        (pre ++ l.length :: l) ++ encodeLabels ls ++ [0] ++ rest := by
      simp
    have h5 : pre.length + 1 + l.length = (pre ++ l.length :: l).length := by
      simp only [List.length_append, List.length_cons]
      omega
    rw [h4, h5, ih _ _ hls2]
    have h6 : joinLabels ((if 0 < acc.length then acc ++ [46] else acc) ++ l) ls =
        joinLabels acc (l :: ls) := rfl
    rw [h6]
    have h7 : (pre ++ l.length :: l).length + (encodeLabels ls).length + 1 =
        pre.length + (encodeLabels (l :: ls)).length + 1 := by
      simp only [List.length_append, List.length_cons, encodeLabels, List.map_cons,
        List.flatten_cons]
      omega
    rw [h7]

/-- Assembling `ParseQuery` from a loop result sitting exactly four bytes
before the end of the query. -/
theorem ParseQuery_of_loop (q dom : List Nat) (pos qt qc : Nat)
    (h12 : ¬ q.length < 12)
    (hloop : ParseQueryLoop q 12 [] = .ok (dom, pos))
    (hlen : q.length = pos + 4)
    (ht1 : q.get? pos = some (qt / 256 % 256))
    (ht2 : q.get? (pos + 1) = some (qt % 256))
    (hc1 : q.get? (pos + 2) = some (qc / 256 % 256))
    (hc2 : q.get? (pos + 3) = some (qc % 256))
    (hqt : qt < 65536) (hqc : qc < 65536) :
    ParseQuery q = .ok ⟨dom, dom ++ [58] ++ decRepr qt, qt, qc⟩ := by
  have e1 : be16 (qt / 256 % 256) (qt % 256) = qt := by
    unfold be16
    omega
  have e2 : be16 (qc / 256 % 256) (qc % 256) = qc := by
    unfold be16
    omega
  unfold ParseQuery
  rw [if_neg h12]
  simp only [hloop]
  rw [if_neg (by omega)]
  simp only [ht1, ht2, hc1, hc2, e1, e2]

/-- Walking `parseDomainName` from the start of an encoded label sequence
consumes exactly the labels and the zero terminator, accumulating the
dot-joined domain (same walk as `ParseQueryLoop`, but with no bounds
checks and no pointer case). -/
theorem parseDomainName_encode (ls : List (List Nat)) (pre acc rest : List Nat)
    (hls : GoodLabels ls) :
    parseDomainName (pre ++ encodeLabels ls ++ [0] ++ rest) pre.length acc =
      some (joinLabels acc ls, pre.length + (encodeLabels ls).length + 1) := by
  induction ls generalizing pre acc with
  | nil =>
    have hshape : pre ++ encodeLabels [] ++ [0] ++ rest = pre ++ 0 :: rest := by
      simp [encodeLabels]
    have hget : (pre ++ 0 :: rest).get? pre.length = some 0 := get?_append_len pre 0 rest
    rw [hshape, parseDomainName]
    split
    · next heq => rw [hget] at heq; exact Option.noConfusion heq
    · next len heq =>
      rw [hget] at heq
      obtain rfl : len = 0 := (Option.some.inj heq).symm
      simp [joinLabels, encodeLabels]
  | cons l ls ih =>
    have hl := hls l (List.mem_cons_self l ls)
    have hls2 : GoodLabels ls := fun x hx => hls x (List.mem_cons_of_mem l hx)
    have hshape : pre ++ encodeLabels (l :: ls) ++ [0] ++ rest =
        pre ++ l.length :: (l ++ (encodeLabels ls ++ [0] ++ rest)) := by
      simp [encodeLabels]
    have hget : (pre ++ l.length :: (l ++ (encodeLabels ls ++ [0] ++ rest))).get?
        pre.length = some l.length := get?_append_len _ _ _
    rw [hshape, parseDomainName]
    split
    · next heq => rw [hget] at heq; exact Option.noConfusion heq
    · next len heq =>
      rw [hget] at heq
      obtain rfl : len = l.length := (Option.some.inj heq).symm
      rw [if_neg (by omega)]
      have hslice : sliceAt (pre ++ l.length :: (l ++ (encodeLabels ls ++ [0] ++ rest)))
          (pre.length + 1) l.length = some l := by
        have h2 : pre ++ l.length :: (l ++ (encodeLabels ls ++ [0] ++ rest)) =
            (pre ++ [l.length]) ++ l ++ (encodeLabels ls ++ [0] ++ rest) := by
          simp
        have h3 : pre.length + 1 = (pre ++ [l.length]).length := by simp
        rw [h2, h3]
        exact sliceAt_append _ _ _
      simp only [hslice]
      have h4 : pre ++ l.length :: (l ++ (encodeLabels ls ++ [0] ++ rest)) =
          (pre ++ l.length :: l) ++ encodeLabels ls ++ [0] ++ rest := by
        simp
      have h5 : pre.length + 1 + l.length = (pre ++ l.length :: l).length := by
        simp only [List.length_append, List.length_cons]
        omega
      rw [h4, h5, ih _ _ hls2]
      have h6 : joinLabels ((if 0 < acc.length then acc ++ [46] else acc) ++ l) ls =
          joinLabels acc (l :: ls) := rfl
      rw [h6]
      have h7 : (pre ++ l.length :: l).length + (encodeLabels ls).length + 1 =
          pre.length + (encodeLabels (l :: ls)).length + 1 := by
        simp only [List.length_append, List.length_cons, encodeLabels, List.map_cons,
          List.flatten_cons]
        omega
      rw [h7]

/-- `ParseQuery` on a message made of an arbitrary prefix of at least 12
bytes followed by an encoded name and qtype/qclass, provided the name
walk starting at offset 12 reaches the start of the encoded name. -/
theorem ParseQuery_encode_general (pre : List Nat) (ls : List (List Nat))
    (qt qc : Nat) (hls : GoodLabels ls) (hqt : qt < 65536) (hqc : qc < 65536)
    (hpre : 12 ≤ pre.length)
    (hloop12 : ParseQueryLoop
        (pre ++ encodeLabels ls ++ [0] ++ (be16Bytes qt ++ be16Bytes qc)) 12 [] =
      ParseQueryLoop
        (pre ++ encodeLabels ls ++ [0] ++ (be16Bytes qt ++ be16Bytes qc))
        pre.length []) :
    ParseQuery (pre ++ encodeLabels ls ++ [0] ++ (be16Bytes qt ++ be16Bytes qc)) =
      .ok ⟨joinLabels [] ls, joinLabels [] ls ++ [58] ++ decRepr qt, qt, qc⟩ := by
  have hloop : ParseQueryLoop
      (pre ++ encodeLabels ls ++ [0] ++ (be16Bytes qt ++ be16Bytes qc)) 12 [] =
      .ok (joinLabels [] ls, pre.length + (encodeLabels ls).length + 1) :=
    hloop12.trans (ParseQueryLoop_encode ls pre [] _ hls)
  have hPlen : (pre ++ encodeLabels ls ++ [0]).length =
      pre.length + (encodeLabels ls).length + 1 := by
    simp only [List.length_append, List.length_cons, List.length_nil]
  have hsuffix : pre ++ encodeLabels ls ++ [0] ++ (be16Bytes qt ++ be16Bytes qc) =
      (pre ++ encodeLabels ls ++ [0]) ++
        [qt / 256 % 256, qt % 256, qc / 256 % 256, qc % 256] := by
    simp [be16Bytes]
  have hlen : (pre ++ encodeLabels ls ++ [0] ++ (be16Bytes qt ++ be16Bytes qc)).length =
      (pre.length + (encodeLabels ls).length + 1) + 4 := by
    simp [be16Bytes]
    omega
  refine ParseQuery_of_loop _ _ _ qt qc (by omega) hloop (by omega) ?_ ?_ ?_ ?_ hqt hqc
  · rw [hsuffix, ← hPlen]
    exact get?_append_len _ _ _
  · rw [hsuffix, ← hPlen]
    exact (get?_append_add _ _ 1).trans rfl
  · rw [hsuffix, ← hPlen]
    exact (get?_append_add _ _ 2).trans rfl
  · rw [hsuffix, ← hPlen]
    exact (get?_append_add _ _ 3).trans rfl

/-! ## Claim C5 (amended): a pointer skips two bytes and continues -/

/-- C5 (amended): when `ParseQuery` meets a length byte `L ≥ 192` while
walking the name at offset 12, it skips two bytes (the second pointer
byte is never inspected) and CONTINUES the walk at the byte after them —
labels located after the pointer are still appended to the returned
domain; the name ends only at a zero byte or the end of the buffer. -/
theorem claim_C5_pointer_skip_continues (p0 p1 : Nat) (ls : List (List Nat))
    (qt qc : Nat) (h0 : 192 ≤ p0) (hls : GoodLabels ls) (hqt : qt < 65536)
    (hqc : qc < 65536) :
    ParseQuery (List.replicate 12 0 ++ [p0, p1] ++ encodeLabels ls ++ [0] ++
        (be16Bytes qt ++ be16Bytes qc)) =
      .ok ⟨joinLabels [] ls, joinLabels [] ls ++ [58] ++ decRepr qt, qt, qc⟩ := by
  have hpre : (12 : Nat) ≤ (List.replicate 12 0 ++ [p0, p1] : List Nat).length := by
    simp
  refine ParseQuery_encode_general (List.replicate 12 0 ++ [p0, p1]) ls qt qc hls
    hqt hqc hpre ?_
  have hshape : (List.replicate 12 0 ++ [p0, p1] : List Nat) ++ encodeLabels ls ++
      [0] ++ (be16Bytes qt ++ be16Bytes qc) =
      (List.replicate 12 0 : List Nat) ++
        p0 :: p1 :: (encodeLabels ls ++ [0] ++ (be16Bytes qt ++ be16Bytes qc)) := by
    simp
  have hget : ((List.replicate 12 0 : List Nat) ++
      p0 :: p1 :: (encodeLabels ls ++ [0] ++ (be16Bytes qt ++ be16Bytes qc))).get? 12 =
      some p0 := by
    have h := get?_append_len (List.replicate 12 0)
      p0 (p1 :: (encodeLabels ls ++ [0] ++ (be16Bytes qt ++ be16Bytes qc)))
    simpa using h
  rw [hshape, ParseQueryLoop,
    dif_pos (by simp only [List.length_append, List.length_cons,
      List.length_replicate]; omega)]
  simp only [hget]
  rw [if_neg (by omega), if_pos h0]
  have harg : (12 : Nat) + 2 = (List.replicate 12 0 ++ [p0, p1] : List Nat).length := by
    simp
  have hlist : (List.replicate 12 0 : List Nat) ++
      p0 :: p1 :: (encodeLabels ls ++ [0] ++ (be16Bytes qt ++ be16Bytes qc)) =
      (List.replicate 12 0 ++ [p0, p1] : List Nat) ++ encodeLabels ls ++ [0] ++
        (be16Bytes qt ++ be16Bytes qc) := by
    simp
  rw [harg, hlist]

/-! ## Claim C9 (amended): the cache key is the verbatim domain -/

/-- C9 (amended): for every well-formed query, the cache key produced by
both `ParseQuery` and `CreateCacheKey` is the domain exactly as its
bytes appear in the query (labels joined with dots, NO lowercasing or
other normalization) followed by `:` and the decimal qtype — so queries
differing in letter case yield different keys. -/
theorem claim_C9_cache_key_verbatim (ls : List (List Nat)) (qt qc : Nat)
    (hls : GoodLabels ls) (hqt : qt < 65536) (hqc : qc < 65536) :
    ParseQuery (mkQuery ls qt qc) =
      .ok ⟨joinLabels [] ls, joinLabels [] ls ++ [58] ++ decRepr qt, qt, qc⟩ ∧
    CreateCacheKey (mkQuery ls qt qc) =
      some (joinLabels [] ls ++ [58] ++ decRepr qt) := by
  have hshape : mkQuery ls qt qc = (List.replicate 12 0 : List Nat) ++
      encodeLabels ls ++ [0] ++ (be16Bytes qt ++ be16Bytes qc) := by
    simp [mkQuery]
  constructor
  · rw [hshape]
    refine ParseQuery_encode_general (List.replicate 12 0) ls qt qc hls hqt hqc
      (by simp) ?_
    simp
  · have hpdn : parseDomainName ((List.replicate 12 0 : List Nat) ++
        encodeLabels ls ++ [0] ++ (be16Bytes qt ++ be16Bytes qc)) 12 [] =
        some (joinLabels [] ls, 12 + (encodeLabels ls).length + 1) := by
      have h := parseDomainName_encode ls (List.replicate 12 0) []
        (be16Bytes qt ++ be16Bytes qc) hls
      simpa using h
    have hPlen : ((List.replicate 12 0 : List Nat) ++ encodeLabels ls ++ [0]).length =
        12 + (encodeLabels ls).length + 1 := by
      simp only [List.length_append, List.length_cons, List.length_nil,
        List.length_replicate]
    have hsuffix : (List.replicate 12 0 : List Nat) ++ encodeLabels ls ++ [0] ++
        (be16Bytes qt ++ be16Bytes qc) =
        ((List.replicate 12 0 : List Nat) ++ encodeLabels ls ++ [0]) ++
          [qt / 256 % 256, qt % 256, qc / 256 % 256, qc % 256] := by
      simp [be16Bytes]
    have ht1 : ((List.replicate 12 0 : List Nat) ++ encodeLabels ls ++ [0] ++
        (be16Bytes qt ++ be16Bytes qc)).get? (12 + (encodeLabels ls).length + 1) =
        some (qt / 256 % 256) := by
      rw [hsuffix, ← hPlen]
      exact get?_append_len _ _ _
    have ht2 : ((List.replicate 12 0 : List Nat) ++ encodeLabels ls ++ [0] ++
        (be16Bytes qt ++ be16Bytes qc)).get? (12 + (encodeLabels ls).length + 1 + 1) =
        some (qt % 256) := by
      rw [hsuffix, ← hPlen]
      exact (get?_append_add _ _ 1).trans rfl
    have hlen : ((List.replicate 12 0 : List Nat) ++ encodeLabels ls ++ [0] ++
        (be16Bytes qt ++ be16Bytes qc)).length =
        (12 + (encodeLabels ls).length + 1) + 4 := by
      simp [be16Bytes]
      omega
    rw [hshape]
    unfold CreateCacheKey
    rw [if_neg (by omega)]
    simp only [hpdn]
    rw [if_neg (by omega)]
    simp only [ht1, ht2]
    have e1 : be16 (qt / 256 % 256) (qt % 256) = qt := by
      unfold be16
      omega
    rw [e1]

/-- Witness for C5 (amended) at the pointer bytes `C0 0C` followed by the
label `"a"`: the appended label lands in the domain and the key is
`"a:1"`. -/
theorem claim_C5_pointer_skip_continues_witness :
    ((192 : Nat) ≤ 0xC0 ∧ GoodLabels [[97]] ∧ (1 : Nat) < 65536) ∧
    ParseQuery (List.replicate 12 0 ++ [0xC0, 0x0C] ++ encodeLabels [[97]] ++ [0] ++
        (be16Bytes 1 ++ be16Bytes 1)) =
      .ok ⟨[97], [97, 58, 49], 1, 1⟩ := by
  refine ⟨⟨by decide, by decide, by decide⟩, ?_⟩
  have h := claim_C5_pointer_skip_continues 0xC0 0x0C [[97]] 1 1 (by decide)
    (by decide) (by decide) (by decide)
  simpa [joinLabels, decRepr, Nat.repr, Nat.toDigits, Nat.toDigitsCore,
    Nat.digitChar, List.asString] using h

/-- Witness for C9 (amended) on the query for `"A"` (type 1): both cache
keys are the verbatim bytes `"A:1"`. -/
theorem claim_C9_cache_key_verbatim_witness :
    (GoodLabels [[65]] ∧ (1 : Nat) < 65536) ∧
    ParseQuery (mkQuery [[65]] 1 1) = .ok ⟨[65], [65, 58, 49], 1, 1⟩ ∧
    CreateCacheKey (mkQuery [[65]] 1 1) = some [65, 58, 49] := by
  refine ⟨⟨by decide, by decide⟩, ?_⟩
  have h := claim_C9_cache_key_verbatim [[65]] 1 1 (by decide) (by decide) (by decide)
  constructor
  · simpa [joinLabels, decRepr, Nat.repr, Nat.toDigits, Nat.toDigitsCore,
      Nat.digitChar, List.asString] using h.1
  · simpa [joinLabels, decRepr, Nat.repr, Nat.toDigits, Nat.toDigitsCore,
      Nat.digitChar, List.asString] using h.2

/-! ## Claim C8: the NXDOMAIN synthesis round-trips through ParseQuery -/

theorem sliceAt_congr (q1 q2 : List Nat) (i n : Nat) (hlen : q1.length = q2.length)
    (hb : ∀ j, i ≤ j → q1.get? j = q2.get? j) : sliceAt q1 i n = sliceAt q2 i n := by
  unfold sliceAt
  rw [hlen]
  split
  · congr 1
    apply List.ext_get?
    intro j
    by_cases hj : j < n
    · rw [List.get?_take hj, List.get?_take hj, List.get?_drop, List.get?_drop]
      exact hb (i + j) (by omega)
    · have h1 : ((q1.drop i).take n).length ≤ j := by
        simp only [List.length_take, List.length_drop]
        omega
      have h2 : ((q2.drop i).take n).length ≤ j := by
        simp only [List.length_take, List.length_drop]
        omega
      rw [List.get?_eq_none.mpr h1, List.get?_eq_none.mpr h2]
  · rfl

theorem ParseQueryLoop_exit (q : List Nat) (pos : Nat) (acc : List Nat)
    (h : ¬ pos < q.length) : ParseQueryLoop q pos acc = .ok (acc, pos) := by
  rw [ParseQueryLoop, dif_neg h]

theorem ParseQueryLoop_enter (q : List Nat) (pos : Nat) (acc : List Nat)
    (h : pos < q.length) :
    ParseQueryLoop q pos acc =
      match q.get? pos with
      | none => .error .oob
      | some length =>
        if length = 0 then .ok (acc, pos + 1)
        else if 192 ≤ length then ParseQueryLoop q (pos + 2) acc
        else
          if q.length < pos + 1 + length then .error .badLabel
          else
            match sliceAt q (pos + 1) length with
            | none => .error .oob
            | some lbl => ParseQueryLoop q (pos + 1 + length)
                ((if 0 < acc.length then acc ++ [46] else acc) ++ lbl) := by
  rw [ParseQueryLoop, dif_pos h]

/-- The name walk reads nothing below offset 4: two queries of the same
length agreeing from byte 4 on walk identically. -/
theorem ParseQueryLoop_congr_aux (q1 q2 : List Nat) (hlen : q1.length = q2.length)
    (hb : ∀ i, 4 ≤ i → q1.get? i = q2.get? i) :
    ∀ fuel pos acc, q1.length - pos ≤ fuel → 4 ≤ pos →
      ParseQueryLoop q1 pos acc = ParseQueryLoop q2 pos acc := by
  intro fuel
  induction fuel with
  | zero =>
    intro pos acc hf hp
    rw [ParseQueryLoop_exit q1 pos acc (by omega),
      ParseQueryLoop_exit q2 pos acc (by omega)]
  | succ n ih =>
    intro pos acc hf hp
    by_cases hin : pos < q1.length
    · rw [ParseQueryLoop_enter q1 pos acc hin,
        ParseQueryLoop_enter q2 pos acc (by omega), ← hb pos (by omega)]
      cases hg : q1.get? pos with
      | none => rfl
      | some len =>
        by_cases h0 : len = 0
        · simp only [if_pos h0]
        · by_cases h192 : 192 ≤ len
          · simp only [if_neg h0, if_pos h192]
            exact ih (pos + 2) acc (by omega) (by omega)
          · simp only [if_neg h0, if_neg h192]
            rw [hlen]
            by_cases hbound : q2.length < pos + 1 + len
            · rw [if_pos hbound, if_pos hbound]
            · rw [if_neg hbound, if_neg hbound]
              rw [← sliceAt_congr q1 q2 (pos + 1) len hlen
                (fun j hj => hb j (by omega))]
              cases hsl : sliceAt q1 (pos + 1) len with
              | none => rfl
              | some lbl =>
                exact ih (pos + 1 + len) _ (by omega) (by omega)
    · rw [ParseQueryLoop_exit q1 pos acc hin,
        ParseQueryLoop_exit q2 pos acc (by omega)]

theorem ParseQueryLoop_congr (q1 q2 : List Nat) (hlen : q1.length = q2.length)
    (hb : ∀ i, 4 ≤ i → q1.get? i = q2.get? i) (pos : Nat) (acc : List Nat)
    (hp : 4 ≤ pos) : ParseQueryLoop q1 pos acc = ParseQueryLoop q2 pos acc :=
  ParseQueryLoop_congr_aux q1 q2 hlen hb (q1.length - pos) pos acc (le_refl _) hp

/-- The final position of a successful name walk is at or after the start
position. -/
theorem ParseQueryLoop_le_aux (q : List Nat) :
    ∀ fuel pos acc dom p, q.length - pos ≤ fuel →
      ParseQueryLoop q pos acc = .ok (dom, p) → pos ≤ p := by
  intro fuel
  induction fuel with
  | zero =>
    intro pos acc dom p hf hloop
    rw [ParseQueryLoop_exit q pos acc (by omega)] at hloop
    obtain ⟨-, h2⟩ := Prod.mk.inj (Except.ok.inj hloop)
    omega
  | succ n ih =>
    intro pos acc dom p hf hloop
    by_cases hin : pos < q.length
    · rw [ParseQueryLoop_enter q pos acc hin] at hloop
      cases hg : q.get? pos with
      | none =>
        simp only [hg] at hloop
        exact Except.noConfusion hloop
      | some len =>
        simp only [hg] at hloop
        by_cases h0 : len = 0
        · rw [if_pos h0] at hloop
          obtain ⟨-, h2⟩ := Prod.mk.inj (Except.ok.inj hloop)
          omega
        · by_cases h192 : 192 ≤ len
          · rw [if_neg h0, if_pos h192] at hloop
            have := ih (pos + 2) acc dom p (by omega) hloop
            omega
          · rw [if_neg h0, if_neg h192] at hloop
            by_cases hbound : q.length < pos + 1 + len
            · rw [if_pos hbound] at hloop
              exact absurd hloop (by simp)
            · rw [if_neg hbound] at hloop
              cases hsl : sliceAt q (pos + 1) len with
              | none =>
                simp only [hsl] at hloop
                exact Except.noConfusion hloop
              | some lbl =>
                simp only [hsl] at hloop
                have := ih (pos + 1 + len) _ dom p (by omega) hloop
                omega
    · rw [ParseQueryLoop_exit q pos acc hin] at hloop
      obtain ⟨-, h2⟩ := Prod.mk.inj (Except.ok.inj hloop)
      omega

/-- `CreateBlockedResponse` only rewrites the flags bytes 2-3, which
`ParseQuery` never reads, so parsing is unchanged: both the domain and
the whole parse result survive the NXDOMAIN synthesis. -/
theorem ParseQuery_blocked (q : List Nat) :
    ParseQuery (CreateBlockedResponse q) = ParseQuery q := by
  by_cases h12 : q.length < 12
  · rw [CreateBlockedResponse, if_pos h12]
  · rw [CreateBlockedResponse, if_neg h12]
    have hlen : ((q.set 2 0x81).set 3 0x83).length = q.length := by simp
    have hb : ∀ i, 4 ≤ i → ((q.set 2 0x81).set 3 0x83).get? i = q.get? i := by
      intro i hi
      rw [List.get?_set_ne _ _ (by omega), List.get?_set_ne _ _ (by omega)]
    have hcong := ParseQueryLoop_congr ((q.set 2 0x81).set 3 0x83) q hlen hb 12 []
      (by omega)
    unfold ParseQuery
    rw [hlen, hcong, if_neg h12, if_neg h12]
    cases hl : ParseQueryLoop q 12 [] with
    | error e => rfl
    | ok dp =>
      obtain ⟨dom, pos⟩ := dp
      have hge : 12 ≤ pos :=
        ParseQueryLoop_le_aux q (q.length - 12) 12 [] dom pos (le_refl _) hl
      simp only [hb pos (by omega), hb (pos + 1) (by omega),
        hb (pos + 2) (by omega), hb (pos + 3) (by omega)]

/-- C8: for every well-formed query `q` (one `ParseQuery` accepts), the
domain extracted from the NXDOMAIN synthesis of `q` equals the domain
extracted from `q` itself. -/
theorem claim_C8_roundtrip (q : List Nat) (info : QueryInfo)
    (h : ParseQuery q = .ok info) :
    ∃ info2, ParseQuery (CreateBlockedResponse q) = .ok info2 ∧
      info2.Domain = info.Domain :=
  ⟨info, (ParseQuery_blocked q).trans h, rfl⟩

/-- Witness for C8 on the query for `"b"` (type 1, class 1). -/
theorem claim_C8_roundtrip_witness :
    ParseQuery ([0, 0, 0, 0, 0, 0, 0, 0, 0, 0, 0, 0] ++ [1, 98, 0, 0, 1, 0, 1]) =
      .ok ⟨[98], [98, 58, 49], 1, 1⟩ ∧
    ∃ info2,
      ParseQuery (CreateBlockedResponse
        ([0, 0, 0, 0, 0, 0, 0, 0, 0, 0, 0, 0] ++ [1, 98, 0, 0, 1, 0, 1])) =
        .ok info2 ∧
      info2.Domain = [98] := by
  have h : ParseQuery ([0, 0, 0, 0, 0, 0, 0, 0, 0, 0, 0, 0] ++ [1, 98, 0, 0, 1, 0, 1]) =
      .ok ⟨[98], [98, 58, 49], 1, 1⟩ := by
    simp [ParseQuery, ParseQueryLoop, sliceAt, be16, decRepr, Nat.repr,
      Nat.toDigits, Nat.toDigitsCore, Nat.digitChar, List.asString]
  exact ⟨h, claim_C8_roundtrip _ _ h⟩

/-! ## Claim C10: ParseQuery is total, with no out-of-bounds access -/

/-- The name walk never commits an out-of-bounds read: every byte and
slice access is covered by the loop condition or the explicit label
bounds check. -/
theorem ParseQueryLoop_ne_oob_aux (q : List Nat) :
    ∀ fuel pos acc, q.length - pos ≤ fuel →
      ParseQueryLoop q pos acc ≠ .error .oob := by
  intro fuel
  induction fuel with
  | zero =>
    intro pos acc hf
    rw [ParseQueryLoop_exit q pos acc (by omega)]
    exact fun h => Except.noConfusion h
  | succ n ih =>
    intro pos acc hf
    by_cases hin : pos < q.length
    · rw [ParseQueryLoop_enter q pos acc hin]
      have hgs : q.get? pos ≠ none := fun hnone => by
        have := List.get?_eq_none.mp hnone
        omega
      obtain ⟨len, hg⟩ := Option.ne_none_iff_exists'.mp hgs
      rw [hg]
      by_cases h0 : len = 0
      · simp only [if_pos h0]
        exact fun h => Except.noConfusion h
      · by_cases h192 : 192 ≤ len
        · simp only [if_neg h0, if_pos h192]
          exact ih (pos + 2) acc (by omega)
        · simp only [if_neg h0, if_neg h192]
          by_cases hbound : q.length < pos + 1 + len
          · rw [if_pos hbound]
            exact fun h => ParseErr.noConfusion (Except.error.inj h)
          · rw [if_neg hbound]
            have hsl : sliceAt q (pos + 1) len =
                some ((q.drop (pos + 1)).take len) := by
              unfold sliceAt
              rw [if_pos (by omega)]
            rw [hsl]
            exact ih (pos + 1 + len) _ (by omega)
    · rw [ParseQueryLoop_exit q pos acc hin]
      exact fun h => Except.noConfusion h

/-- C10: `ParseQuery` is total over arbitrary byte sequences with no
out-of-bounds access (the `oob` panic marker is unreachable); inputs
shorter than 12 bytes are rejected as too short; a label length that
would run past the end of the buffer is rejected by the walk; and a
buffer too short to hold qtype and qclass after the name is rejected. -/
theorem claim_C10_parse_total (q : List Nat) :
    ParseQuery q ≠ .error .oob ∧
    (q.length < 12 → ParseQuery q = .error .tooShort) ∧
    (∀ pos acc L, q.get? pos = some L → L ≠ 0 → ¬ 192 ≤ L →
      q.length < pos + 1 + L → ParseQueryLoop q pos acc = .error .badLabel) ∧
    (∀ dom pos, ParseQueryLoop q 12 [] = .ok (dom, pos) → q.length < pos + 4 →
      ¬ q.length < 12 → ParseQuery q = .error .shortQC) := by
  refine ⟨?_, fun h => by rw [ParseQuery, if_pos h], ?_, ?_⟩
  · unfold ParseQuery
    by_cases h12 : q.length < 12
    · rw [if_pos h12]
      exact fun h => ParseErr.noConfusion (Except.error.inj h)
    · rw [if_neg h12]
      cases hl : ParseQueryLoop q 12 [] with
      | error e =>
        have hne := ParseQueryLoop_ne_oob_aux q (q.length - 12) 12 [] (le_refl _)
        rw [hl] at hne
        simpa using hne
      | ok dp =>
        obtain ⟨dom, pos⟩ := dp
        by_cases hq4 : q.length < pos + 4
        · simp only [if_pos hq4]
          exact fun h => ParseErr.noConfusion (Except.error.inj h)
        · simp only [if_neg hq4]
          have hr : ∀ i, i < q.length → ∃ b, q.get? i = some b := by
            intro i hi
            refine Option.ne_none_iff_exists'.mp fun hnone => ?_
            have := List.get?_eq_none.mp hnone
            omega
          obtain ⟨b0, hb0⟩ := hr pos (by omega)
          obtain ⟨b1, hb1⟩ := hr (pos + 1) (by omega)
          obtain ⟨b2, hb2⟩ := hr (pos + 2) (by omega)
          obtain ⟨b3, hb3⟩ := hr (pos + 3) (by omega)
          simp only [hb0, hb1, hb2, hb3]
          exact fun h => Except.noConfusion h
  · intro pos acc L hg h0 h192 hbound
    rw [ParseQueryLoop_enter q pos acc (get?_some_lt hg), hg]
    simp only [if_neg h0, if_neg h192, if_pos hbound]
  · intro dom pos hloop hshort h12
    unfold ParseQuery
    rw [if_neg h12]
    simp only [hloop]
    rw [if_pos hshort]

/-- Witness for C10: the rejection paths at concrete inputs — a 3-byte
input (too short), a label length 5 running past a 14-byte buffer
(malformed label), and a name that ends at the buffer boundary leaving no
room for qtype/qclass; plus the no-panic guarantee on the malformed
12-byte input that crashes `ExtractTTL`. -/
theorem claim_C10_parse_total_witness :
    (([1, 2, 3] : List Nat).length < 12 ∧
      ParseQuery [1, 2, 3] = .error .tooShort) ∧
    (([0, 0, 0, 0, 0, 0, 0, 0, 0, 0, 0, 0, 5, 97] : List Nat).get? 12 = some 5 ∧
      ParseQueryLoop [0, 0, 0, 0, 0, 0, 0, 0, 0, 0, 0, 0, 5, 97] 12 [] =
        .error .badLabel) ∧
    ParseQuery [0, 0, 0, 0, 0, 0, 0, 0, 0, 0, 0, 0, 0] = .error .shortQC ∧
    ParseQuery [0, 0, 0, 0, 0, 1, 0, 0, 0, 0, 0, 0] ≠ .error .oob := by
  refine ⟨⟨by decide, (claim_C10_parse_total [1, 2, 3]).2.1 (by decide)⟩,
    ⟨by decide, (claim_C10_parse_total _).2.2.1 12 [] 5 (by decide) (by decide)
      (by decide) (by decide)⟩, ?_, (claim_C10_parse_total _).1⟩
  have hloop : ParseQueryLoop [0, 0, 0, 0, 0, 0, 0, 0, 0, 0, 0, 0, 0] 12 [] =
      .ok ([], 13) := by
    simp [ParseQueryLoop]
  exact (claim_C10_parse_total _).2.2.2 [] 13 hloop (by decide) (by decide)

/-! ## Claim C3 (amended): the extracted TTL is min(3600, answer TTLs) -/

theorem SkipName_at_zero (r : List Nat) (pos : Nat) (h : pos < r.length)
    (h0 : r.getD pos 0 = 0) : SkipName r pos = pos := by
  rw [SkipName, dif_pos h, if_pos h0]

/-- Running the answer loop over encoded answer records folds their TTLs
into the running minimum exactly as the source's `if ttl < minTTL`
update does. -/
theorem AnswerLoop_encode (answers : List (Nat × List Nat)) (pre : List Nat)
    (m : Nat) (ha : GoodAnswers answers) :
    AnswerLoop (pre ++ (answers.map (fun a => encodeAnswer a.1 a.2)).flatten)
      pre.length m answers.length =
      answers.foldl (fun acc a => if a.1 < acc then a.1 else acc) m := by
  induction answers generalizing pre m with
  | nil => simp [AnswerLoop]
  | cons a rest ih =>
    obtain ⟨httl, hrd⟩ := ha a (List.mem_cons_self a rest)
    have harest : GoodAnswers rest := fun x hx => ha x (List.mem_cons_of_mem a hx)
    have hEnc : (((a :: rest).map (fun a => encodeAnswer a.1 a.2)).flatten :
        List Nat) = encodeAnswer a.1 a.2 ++
        ((rest.map (fun a => encodeAnswer a.1 a.2)).flatten) := by
      simp
    have hEncLen : (encodeAnswer a.1 a.2).length = 11 + a.2.length := by
      simp [encodeAnswer]
      omega
    set F := ((rest.map (fun a => encodeAnswer a.1 a.2)).flatten : List Nat) with hF
    have hrlen : (pre ++ ((a :: rest).map (fun a => encodeAnswer a.1 a.2)).flatten).length =
        pre.length + 11 + a.2.length + F.length := by
      rw [hEnc]
      simp only [List.length_append, hEncLen]
      omega
    rw [List.length_cons, AnswerLoop, if_pos (by omega)]
    have hzero : (pre ++ ((a :: rest).map (fun a => encodeAnswer a.1 a.2)).flatten).getD
        pre.length 0 = 0 := by
      rw [hEnc]
      have h := getD_append_add pre (encodeAnswer a.1 a.2 ++ F) 0
      simpa using h
    have hlt : pre.length <
        (pre ++ ((a :: rest).map (fun a => encodeAnswer a.1 a.2)).flatten).length := by
      omega
    rw [SkipName_at_zero _ _ hlt hzero]
    simp only [if_pos hlt, if_pos hzero]
    rw [if_neg (by omega)]
    have hread : ∀ i, (pre ++ ((a :: rest).map (fun a => encodeAnswer a.1 a.2)).flatten).getD
        (pre.length + i) 0 = (encodeAnswer a.1 a.2 ++ F).getD i 0 := by
      intro i
      rw [hEnc]
      exact getD_append_add pre _ i
    have e5 : pre.length + 1 + 4 = pre.length + 5 := by omega
    have e6 : pre.length + 1 + 5 = pre.length + 6 := by omega
    have e7 : pre.length + 1 + 6 = pre.length + 7 := by omega
    have e8 : pre.length + 1 + 7 = pre.length + 8 := by omega
    have e9 : pre.length + 1 + 8 = pre.length + 9 := by omega
    have e10 : pre.length + 1 + 9 = pre.length + 10 := by omega
    rw [e5, e6, e7, e8, e9, e10, hread 5, hread 6, hread 7, hread 8, hread 9,
      hread 10]
    have hdec : be32 ((encodeAnswer a.1 a.2 ++ F).getD 5 0)
        ((encodeAnswer a.1 a.2 ++ F).getD 6 0)
        ((encodeAnswer a.1 a.2 ++ F).getD 7 0)
        ((encodeAnswer a.1 a.2 ++ F).getD 8 0) = a.1 := by
      simp only [encodeAnswer, List.cons_append, List.getD_cons_succ,
        List.getD_cons_zero, be32]
      omega
    have hrdl : be16 ((encodeAnswer a.1 a.2 ++ F).getD 9 0)
        ((encodeAnswer a.1 a.2 ++ F).getD 10 0) = a.2.length := by
      simp only [encodeAnswer, List.cons_append, List.getD_cons_succ,
        List.getD_cons_zero, be16]
      omega
    rw [hdec, hrdl]
    have hnext : pre.length + 1 + 10 + a.2.length =
        (pre ++ encodeAnswer a.1 a.2).length := by
      simp only [List.length_append, hEncLen]
      omega
    have hlist : pre ++ ((a :: rest).map (fun a => encodeAnswer a.1 a.2)).flatten =
        (pre ++ encodeAnswer a.1 a.2) ++ F := by
      rw [hEnc]
      simp
    rw [hnext, hlist, ih (pre ++ encodeAnswer a.1 a.2) _ harest]
    rfl

/-- C3 (amended): `ExtractTTL` folds the answer TTLs into a minimum
initialised at the 3600-second default, i.e. it returns the minimum of
3600 and the TTLs of all answer records — when every answer TTL exceeds
3600 it returns 3600, not the larger minimum the claim expected. -/
theorem claim_C3_min_ttl_capped (answers : List (Nat × List Nat))
    (ha : GoodAnswers answers) (hc : answers.length < 65536) :
    ExtractTTL (mkResponse answers) =
      some (answers.foldl (fun acc a => if a.1 < acc then a.1 else acc) 3600) := by
  have hflen : (mkResponse answers).length =
      12 + ((answers.map (fun a => encodeAnswer a.1 a.2)).flatten).length := by
    simp [mkResponse]
    omega
  unfold ExtractTTL
  rw [if_neg (by omega)]
  have hg4 : (mkResponse answers).getD 4 0 = 0 := by
    rw [mkResponse, List.getD_append _ _ 0 4 (by simp)]
    rfl
  have hg5 : (mkResponse answers).getD 5 0 = 0 := by
    rw [mkResponse, List.getD_append _ _ 0 5 (by simp)]
    rfl
  have hg6 : (mkResponse answers).getD 6 0 = answers.length / 256 % 256 := by
    rw [mkResponse, List.getD_append _ _ 0 6 (by simp)]
    rfl
  have hg7 : (mkResponse answers).getD 7 0 = answers.length % 256 := by
    rw [mkResponse, List.getD_append _ _ 0 7 (by simp)]
    rfl
  rw [hg4, hg5, hg6, hg7]
  have hqd : be16 0 0 = 0 := by simp [be16]
  rw [hqd]
  have hskip : SkipQuestions (mkResponse answers) 12 0 = some 12 := rfl
  rw [hskip]
  have hanc : be16 (answers.length / 256 % 256) (answers.length % 256) =
      answers.length := by
    unfold be16
    omega
  rw [hanc]
  have h12 : (12 : Nat) =
      ([0, 0, 0, 0, 0, 0, answers.length / 256 % 256, answers.length % 256,
        0, 0, 0, 0] : List Nat).length := by
    simp
  rw [mkResponse, h12]
  simp only [AnswerLoop_encode answers
    [0, 0, 0, 0, 0, 0, answers.length / 256 % 256, answers.length % 256, 0, 0, 0, 0]
    3600 ha]

/-- Witness for C3 (amended) on two answers with TTLs 100 and 7200: the
result is 100 = min(3600, 100, 7200). -/
theorem claim_C3_min_ttl_capped_witness :
    (GoodAnswers [(100, [1, 2, 3, 4]), (7200, [5, 6, 7, 8])] ∧
      ([(100, [1, 2, 3, 4]), (7200, [5, 6, 7, 8])] :
        List (Nat × List Nat)).length < 65536) ∧
    ExtractTTL (mkResponse [(100, [1, 2, 3, 4]), (7200, [5, 6, 7, 8])]) =
      some 100 := by
  refine ⟨⟨by decide, by decide⟩, ?_⟩
  have h := claim_C3_min_ttl_capped [(100, [1, 2, 3, 4]), (7200, [5, 6, 7, 8])]
    (by decide) (by decide)
  simpa using h

/-! ## Claim C6: NXDOMAIN synthesis -/

/-- C6: for every query of at least 12 bytes, `CreateBlockedResponse`
returns a byte string equal to the query at every position except bytes
2-3, which are set to `0x81 0x83`; length and all other fields (id,
counts) are unchanged; shorter inputs are returned unchanged. -/
theorem claim_C6_blocked_response (q : List Nat) :
    (12 ≤ q.length →
      (CreateBlockedResponse q).length = q.length ∧
      (CreateBlockedResponse q).get? 2 = some 0x81 ∧
      (CreateBlockedResponse q).get? 3 = some 0x83 ∧
      ∀ i, i ≠ 2 → i ≠ 3 → (CreateBlockedResponse q).get? i = q.get? i) ∧
    (q.length < 12 → CreateBlockedResponse q = q) := by
  refine ⟨fun h => ?_, fun h => by simp [CreateBlockedResponse, h]⟩
  have h12 : ¬ q.length < 12 := by omega
  simp only [CreateBlockedResponse, if_neg h12]
  refine ⟨by simp, ?_, ?_, fun i h2 h3 => ?_⟩
  · rw [List.get?_set_ne _ _ (by omega : (3 : Nat) ≠ 2)]
    exact List.get?_set_eq_of_lt _ (by omega)
  · exact List.get?_set_eq_of_lt _ (by simp; omega)
  · rw [List.get?_set_ne _ _ (Ne.symm h3), List.get?_set_ne _ _ (Ne.symm h2)]

/-- Witness for C6 at the input of `TestCreateBlockedResponse`: a 12-byte
query with transaction id `0x1234`. -/
theorem claim_C6_blocked_response_witness :
    (12 : Nat) ≤ ([0x12, 0x34, 0, 0, 0, 0, 0, 0, 0, 0, 0, 0] : List Nat).length ∧
    (CreateBlockedResponse [0x12, 0x34, 0, 0, 0, 0, 0, 0, 0, 0, 0, 0]).get? 2 = some 0x81 ∧
    (CreateBlockedResponse [0x12, 0x34, 0, 0, 0, 0, 0, 0, 0, 0, 0, 0]).get? 3 = some 0x83 ∧
    (CreateBlockedResponse [0x12, 0x34, 0, 0, 0, 0, 0, 0, 0, 0, 0, 0]).get? 0 = some 0x12 ∧
    (CreateBlockedResponse [0x12, 0x34, 0, 0, 0, 0, 0, 0, 0, 0, 0, 0]).get? 6 = some 0 ∧
    (CreateBlockedResponse [0x12, 0x34, 0, 0, 0, 0, 0, 0, 0, 0, 0, 0]).length = 12 := by
  have h := (claim_C6_blocked_response [0x12, 0x34, 0, 0, 0, 0, 0, 0, 0, 0, 0, 0]).1
    (by decide)
  refine ⟨by decide, h.2.1, h.2.2.1, ?_, ?_, ?_⟩
  · rw [h.2.2.2 0 (by decide) (by decide)]; decide
  · rw [h.2.2.2 6 (by decide) (by decide)]; decide
  · rw [h.1]; decide

/-! ## Claim C7: null-response synthesis -/

/-- C7: for every query of at least 12 bytes, `CreateNullResponse`
returns the query with flags `0x8180`, answer count 1, and exactly the
16-byte A-record `C0 0C 00 01 00 01 00 00 02 58 00 04 00 00 00 00`
appended; every other position below the query length is preserved;
shorter inputs are returned unchanged. -/
theorem claim_C7_null_response (q : List Nat) :
    (12 ≤ q.length →
      (CreateNullResponse q).length = q.length + 16 ∧
      (CreateNullResponse q).get? 2 = some 0x81 ∧
      (CreateNullResponse q).get? 3 = some 0x80 ∧
      (CreateNullResponse q).get? 6 = some 0 ∧
      (CreateNullResponse q).get? 7 = some 1 ∧
      (∀ j, (CreateNullResponse q).get? (q.length + j) =
        ([0xC0, 0x0C, 0, 1, 0, 1, 0, 0, 0x02, 0x58, 0, 4, 0, 0, 0, 0] : List Nat).get? j) ∧
      (∀ i, i < q.length → i ≠ 2 → i ≠ 3 → i ≠ 6 → i ≠ 7 →
        (CreateNullResponse q).get? i = q.get? i)) ∧
    (q.length < 12 → CreateNullResponse q = q) := by
  refine ⟨fun h => ?_, fun h => by simp [CreateNullResponse, h]⟩
  have h12 : ¬ q.length < 12 := by omega
  simp only [CreateNullResponse, if_neg h12]
  have hlen : ((((q.set 2 0x81).set 3 0x80).set 6 0).set 7 1).length = q.length := by
    simp
  refine ⟨by simp, ?_, ?_, ?_, ?_, fun j => ?_, fun i hi h2 h3 h6 h7 => ?_⟩
  · rw [List.get?_append (by simp; omega),
      List.get?_set_ne _ _ (by omega : (7 : Nat) ≠ 2),
      List.get?_set_ne _ _ (by omega : (6 : Nat) ≠ 2),
      List.get?_set_ne _ _ (by omega : (3 : Nat) ≠ 2)]
    exact List.get?_set_eq_of_lt _ (by omega)
  · rw [List.get?_append (by simp; omega),
      List.get?_set_ne _ _ (by omega : (7 : Nat) ≠ 3),
      List.get?_set_ne _ _ (by omega : (6 : Nat) ≠ 3)]
    exact List.get?_set_eq_of_lt _ (by simp; omega)
  · rw [List.get?_append (by simp; omega),
      List.get?_set_ne _ _ (by omega : (7 : Nat) ≠ 6)]
    exact List.get?_set_eq_of_lt _ (by simp; omega)
  · rw [List.get?_append (by simp; omega)]
    exact List.get?_set_eq_of_lt _ (by simp; omega)
  · have hj : q.length + j = ((((q.set 2 0x81).set 3 0x80).set 6 0).set 7 1).length + j := by
      rw [hlen]
    rw [hj, List.get?_append_right (Nat.le_add_right _ _), Nat.add_sub_cancel_left]
  · rw [List.get?_append (by rw [hlen]; omega),
      List.get?_set_ne _ _ (Ne.symm h7), List.get?_set_ne _ _ (Ne.symm h6),
      List.get?_set_ne _ _ (Ne.symm h3), List.get?_set_ne _ _ (Ne.symm h2)]

/-- Witness for C7 at the input of `TestCreateNullResponse`: a 12-byte
query with transaction id `0x5678`; the answer record starts right after
the query and the final four bytes are zero. -/
theorem claim_C7_null_response_witness :
    (12 : Nat) ≤ ([0x56, 0x78, 0, 0, 0, 0, 0, 0, 0, 0, 0, 0] : List Nat).length ∧
    (CreateNullResponse [0x56, 0x78, 0, 0, 0, 0, 0, 0, 0, 0, 0, 0]).length = 28 ∧
    (CreateNullResponse [0x56, 0x78, 0, 0, 0, 0, 0, 0, 0, 0, 0, 0]).get? 2 = some 0x81 ∧
    (CreateNullResponse [0x56, 0x78, 0, 0, 0, 0, 0, 0, 0, 0, 0, 0]).get? 3 = some 0x80 ∧
    (CreateNullResponse [0x56, 0x78, 0, 0, 0, 0, 0, 0, 0, 0, 0, 0]).get? 7 = some 1 ∧
    (CreateNullResponse [0x56, 0x78, 0, 0, 0, 0, 0, 0, 0, 0, 0, 0]).get? 12 = some 0xC0 ∧
    (CreateNullResponse [0x56, 0x78, 0, 0, 0, 0, 0, 0, 0, 0, 0, 0]).get? 13 = some 0x0C ∧
    (CreateNullResponse [0x56, 0x78, 0, 0, 0, 0, 0, 0, 0, 0, 0, 0]).get? 27 = some 0 ∧
    (CreateNullResponse [0x56, 0x78, 0, 0, 0, 0, 0, 0, 0, 0, 0, 0]).get? 0 = some 0x56 := by
  have h := (claim_C7_null_response [0x56, 0x78, 0, 0, 0, 0, 0, 0, 0, 0, 0, 0]).1
    (by decide)
  refine ⟨by decide, by rw [h.1]; decide, h.2.1, h.2.2.1, h.2.2.2.2.1, ?_, ?_, ?_, ?_⟩
  · simpa using h.2.2.2.2.2.1 0
  · simpa using h.2.2.2.2.2.1 1
  · simpa using h.2.2.2.2.2.1 15
  · rw [h.2.2.2.2.2.2 0 (by decide) (by decide) (by decide) (by decide) (by decide)]
    decide

/-! ## Claim C4: ExtractTTL totality fails -/

/-- C4: the claim asserts `ExtractTTL` is total with no out-of-bounds
access.  The code is not: on the 12-byte response
`00 00 00 00 00 01 00 00 00 00 00 00` (qdcount = 1, empty body) the
question walk evaluates `response[12]` on a 12-byte slice and panics —
here the checked read yields the panic marker `none`.  The short-input
and zero-answer defaults of the claim do hold (see the builder theorems),
but totality is refuted. -/
theorem claim_C4_extractttl_panics :
    ExtractTTL [0, 0, 0, 0, 0, 1, 0, 0, 0, 0, 0, 0] = none := by
  simp [ExtractTTL, SkipQuestions, SkipQuestion, SkipName, be16]

/-! ## Claim C3 counterexample: the minimum is capped at 3600 -/

/-- C3 counterexample: a well-formed response holding exactly one answer
record whose TTL is 7200.  The claim says `ExtractTTL` returns the
minimum TTL of the answers — 7200 — but the code initialises its minimum
at 3600 and only lowers it, so it returns 3600. -/
theorem claim_C3_counterexample :
    ExtractTTL (mkResponse [(7200, [1, 2, 3, 4])]) = some 3600 ∧
    (7200 : Nat) ≠ 3600 := by
  refine ⟨?_, by decide⟩
  simp [ExtractTTL, mkResponse, encodeAnswer, SkipQuestions, SkipQuestion,
    SkipName, AnswerLoop, be16, be32]

/-! ## Claim C5 counterexample: a pointer does not end the name -/

/-- C5 counterexample: in the query whose name section is
`C0 0C 01 'a' 00` followed by qtype/qclass, the label byte `'a'` (0x61)
located after the compression pointer IS appended to the returned domain:
the code skips two bytes and continues the walk instead of ending the
name, so the domain is `"a"`, not the empty name the claim requires. -/
theorem claim_C5_counterexample :
    ParseQuery ([0, 0, 0, 0, 0, 0, 0, 0, 0, 0, 0, 0] ++
        [0xC0, 0x0C, 1, 97, 0, 0, 1, 0, 1]) =
      .ok ⟨[97], [97, 58, 49], 1, 1⟩ ∧
    ([97] : List Nat) ≠ [] := by
  refine ⟨?_, by decide⟩
  simp [ParseQuery, ParseQueryLoop, sliceAt, be16, decRepr, Nat.repr,
    Nat.toDigits, Nat.toDigitsCore, Nat.digitChar, List.asString]

/-! ## Claim C9 counterexample: the cache key is not lowercased -/

/-- C9 counterexample: the queries for `"A"` and `"a"` (type 1) differ
only in letter case, yet `ParseQuery` produces the distinct cache keys
`"A:1"` and `"a:1"`, and `CreateCacheKey` agrees — no lowercasing (nor
any other normalization) is applied. -/
theorem claim_C9_counterexample :
    ParseQuery ([0, 0, 0, 0, 0, 0, 0, 0, 0, 0, 0, 0] ++ [1, 65, 0, 0, 1, 0, 1]) =
      .ok ⟨[65], [65, 58, 49], 1, 1⟩ ∧
    ParseQuery ([0, 0, 0, 0, 0, 0, 0, 0, 0, 0, 0, 0] ++ [1, 97, 0, 0, 1, 0, 1]) =
      .ok ⟨[97], [97, 58, 49], 1, 1⟩ ∧
    CreateCacheKey ([0, 0, 0, 0, 0, 0, 0, 0, 0, 0, 0, 0] ++ [1, 65, 0, 0, 1, 0, 1]) =
      some [65, 58, 49] ∧
    ([65, 58, 49] : List Nat) ≠ [97, 58, 49] := by
  refine ⟨?_, ?_, ?_, by decide⟩
  · simp [ParseQuery, ParseQueryLoop, sliceAt, be16, decRepr, Nat.repr,
      Nat.toDigits, Nat.toDigitsCore, Nat.digitChar, List.asString]
  · simp [ParseQuery, ParseQueryLoop, sliceAt, be16, decRepr, Nat.repr,
      Nat.toDigits, Nat.toDigitsCore, Nat.digitChar, List.asString]
  · simp [CreateCacheKey, parseDomainName, sliceAt, be16, decRepr, Nat.repr,
      Nat.toDigits, Nat.toDigitsCore, Nat.digitChar, List.asString]

end FlashDns
